import Mathlib

/-!
Verification of the LRU cache package (`src/packages/lru`).

The TypeScript class `LRU<K, V>` (src/packages/lru/src/lru_cache.ts) wraps a
JavaScript `Map`, which iterates its entries in insertion order.  We embed the
`Map` as a `List (K × V)` in insertion order (oldest first) and translate each
method of the class body by body.  JavaScript numbers reaching the constructor
are embedded as `JSNum` (NaN, infinities, or a finite rational) and the
`+maxSize >>> 0` coercion as ECMAScript `ToUint32`.
-/

namespace Spec2Proof

/-! ### JavaScript number coercion (`+maxSize >>> 0`) -/

/-- A JavaScript `number` as it can reach `new LRU(maxSize)`: NaN, one of the
infinities, or a finite value (embedded as a rational). -/
inductive JSNum : Type where
  | nan : JSNum
  | posInf : JSNum
  | negInf : JSNum
  | finite : ℚ → JSNum

/-- ECMAScript truncation: same sign as the argument, magnitude `floor (abs q)`. -/
def jsTruncate (q : ℚ) : ℤ :=
  if 0 ≤ q then ⌊q⌋ else -⌊-q⌋

/-- ECMAScript `ToUint32`: NaN and the infinities map to `0`; a finite value is
truncated toward zero and reduced modulo `2 ^ 32` into `[0, 2 ^ 32)`.
This is the semantics of `x >>> 0` used at lru_cache.ts:62. -/
def toUint32 : JSNum → ℕ
  | .nan => 0
  | .posInf => 0
  | .negInf => 0
  | .finite q => (Int.emod (jsTruncate q) (2 ^ 32)).toNat

/-! ### The backing JavaScript `Map`, as a list in insertion order -/

variable {K V : Type}

/-- `Map.prototype.has`. -/
def mapHas [DecidableEq K] (m : List (K × V)) (k : K) : Bool :=
  m.any fun p => p.1 = k

/-- `Map.prototype.get` (`undefined` becomes `none`). -/
def mapGet [DecidableEq K] (m : List (K × V)) (k : K) : Option V :=
  (m.find? fun p => p.1 = k).map Prod.snd

/-- `Map.prototype.delete`, state part: the entry keyed `k` is removed, all
other entries keep their relative order. -/
def mapDelete [DecidableEq K] (m : List (K × V)) (k : K) : List (K × V) :=
  m.filter fun p => ¬ p.1 = k

/-- `Map.prototype.set`: an existing key is updated in place, a new key is
appended at the most-recent end of the insertion order. -/
def mapSet [DecidableEq K] (m : List (K × V)) (k : K) (v : V) : List (K × V) :=
  if mapHas m k then m.map fun p => if p.1 = k then (k, v) else p
  else m ++ [(k, v)]

/-! ### The `LRU` class -/

/-- The state of an `LRU<K, V>` instance: the private `#cache` map and the
private `#maxSize` field (a uint32 after constructor coercion). -/
structure LRU (K V : Type) : Type where
  cache : List (K × V)
  maxSize : ℕ

/-- `new LRU(maxSize)`: `#cache` starts empty, `#maxSize` starts at `128` and
is overwritten by `+maxSize >>> 0` when the argument is neither `null` nor
`undefined` (both embedded as `none`). -/
def LRU.create (K V : Type) (maxSize? : Option JSNum) : LRU K V :=
  { cache := []
    maxSize :=
      match maxSize? with
      | none => 128
      | some n => toUint32 n }

/-- The `size` getter: `this.#cache.size`. -/
def LRU.size (s : LRU K V) : ℕ :=
  s.cache.length

/-- `LRU.prototype.has`. -/
def LRU.has [DecidableEq K] (s : LRU K V) (k : K) : Bool :=
  mapHas s.cache k

/-- `LRU.prototype.get`: on a hit the entry is deleted and re-inserted (so it
moves to the most-recent end) and its value is returned; on a miss the state
is untouched and `undefined` (`none`) is returned. -/
def LRU.get [DecidableEq K] (s : LRU K V) (k : K) : Option V × LRU K V :=
  match mapGet s.cache k with
  | some v => (some v, { s with cache := mapSet (mapDelete s.cache k) k v })
  | none => (none, s)

/-- The state of `#cache` in `LRU.prototype.set` just before the final
`this.#cache.set(key, value)`: an existing key is deleted; otherwise, when the
map is at (or beyond) capacity, the oldest key — the first of `#cache.keys()`
— is deleted if the map is nonempty. -/
def LRU.setPrep [DecidableEq K] (s : LRU K V) (k : K) : List (K × V) :=
  if mapHas s.cache k then mapDelete s.cache k
  else if s.maxSize ≤ s.cache.length then
    match s.cache.head? with
    | some p => mapDelete s.cache p.1
    | none => s.cache
  else s.cache

/-- `LRU.prototype.set`: the preparation step above followed by
`this.#cache.set(key, value)`. -/
def LRU.set [DecidableEq K] (s : LRU K V) (k : K) (v : V) : LRU K V :=
  { s with cache := mapSet (s.setPrep k) k v }

/-- `LRU.prototype.delete`: returns what `Map.prototype.delete` returns
(`true` iff the key was present) together with the new state. -/
def LRU.delete [DecidableEq K] (s : LRU K V) (k : K) : Bool × LRU K V :=
  (mapHas s.cache k, { s with cache := mapDelete s.cache k })

/-- `LRU.prototype.clear`. -/
def LRU.clear (s : LRU K V) : LRU K V :=
  { s with cache := [] }

/-- Well-formedness inherited from the backing `Map`: keys are pairwise
distinct.  Every state reachable through the public interface satisfies it. -/
def LRU.WF (s : LRU K V) : Prop :=
  (s.cache.map Prod.fst).Nodup

/-! ### Operation sequences against one store -/

/-- One public mutating call on an `LRU` instance. -/
inductive Op (K V : Type) : Type where
  | set : K → V → Op K V
  | get : K → Op K V
  | delete : K → Op K V
  | clear : Op K V

/-- Run one call, keeping only the state. -/
def applyOp [DecidableEq K] (s : LRU K V) : Op K V → LRU K V
  | .set k v => s.set k v
  | .get k => (s.get k).2
  | .delete k => (s.delete k).2
  | .clear => s.clear

/-- Run a sequence of calls left to right. -/
def applyOps [DecidableEq K] (s : LRU K V) (ops : List (Op K V)) : LRU K V :=
  ops.foldl applyOp s

/-! ### The default key generator (`defaultKey`, JSON.stringify of the args)

Serializable JavaScript values are embedded as the mutual inductive `Json`
(numbers restricted to the safe integers, whose `toString` is plain decimal
notation), and `JSON.stringify` as `stringify`, following the ECMAScript
`SerializeJSONProperty` / `QuoteJSONString` algorithms: object properties in
insertion order, strings quoted with the JSON escapes. -/

mutual
/-- A serializable JavaScript value. -/
inductive Json : Type where
  | null : Json
  | bool : Bool → Json
  | num : ℤ → Json
  | str : String → Json
  | arr : JsonList → Json
  | obj : JsonFields → Json
/-- The elements of a JavaScript array, in order. -/
inductive JsonList : Type where
  | nil : JsonList
  | cons : Json → JsonList → JsonList
/-- The own enumerable properties of a JavaScript object, in insertion order. -/
inductive JsonFields : Type where
  | fnil : JsonFields
  | fcons : String → Json → JsonFields → JsonFields
end

/-- One hexadecimal digit, lowercase, as emitted by `\u` escapes. -/
def hexDigit (n : ℕ) : Char :=
  if n < 10 then Char.ofNat (48 + n) else Char.ofNat (87 + n % 16)

/-- Four hexadecimal digits of a code point below `0x10000`. -/
def hex4 (n : ℕ) : String :=
  String.mk [hexDigit (n / 4096 % 16), hexDigit (n / 256 % 16),
    hexDigit (n / 16 % 16), hexDigit (n % 16)]

/-- ECMAScript `QuoteJSONString`, per character: the two-character escapes for
quote, backslash, backspace, form feed, newline, carriage return and tab,
`\u00xx` for the remaining control characters, the character itself otherwise. -/
def escapeChar (c : Char) : String :=
  if c = '\x22' then "\\\""
  else if c = '\\' then "\\\\"
  else if c = '\x08' then "\\b"
  else if c = '\x0c' then "\\f"
  else if c = '\n' then "\\n"
  else if c = '\x0d' then "\\r"
  else if c = '\t' then "\\t"
  else if c.toNat < 32 then "\\u" ++ hex4 c.toNat
  else String.singleton c

/-- ECMAScript `QuoteJSONString`. -/
def quoteStr (s : String) : String :=
  "\"" ++ String.join (s.toList.map escapeChar) ++ "\""

mutual
/-- `JSON.stringify` on a serializable value. -/
def stringify : Json → String
  | .null => "null"
  | .bool b => cond b "true" "false"
  | .num n => toString n
  | .str s => quoteStr s
  | .arr l => "[" ++ stringifyList l ++ "]"
  | .obj l => "\x7b" ++ stringifyFields l ++ "\x7d"
/-- Array elements joined by commas. -/
def stringifyList : JsonList → String
  | .nil => ""
  | .cons h .nil => stringify h
  | .cons h (.cons h2 t) => stringify h ++ "," ++ stringifyList (.cons h2 t)
/-- Object properties joined by commas. -/
def stringifyFields : JsonFields → String
  | .fnil => ""
  | .fcons k v .fnil => quoteStr k ++ ":" ++ stringify v
  | .fcons k v (.fcons k2 v2 t) =>
    quoteStr k ++ ":" ++ stringify v ++ "," ++ stringifyFields (.fcons k2 v2 t)
end

/-- `defaultKey` (src/unnamed/part_014:49): `JSON.stringify(args)` where
`args` is the array of the call's arguments. -/
def defaultKey (args : JsonList) : String :=
  stringify (Json.arr args)

mutual
/-- Structural equality of serializable values. -/
def jsonBeq : Json → Json → Bool
  | .null, .null => true
  | .bool a, .bool b => a = b
  | .num a, .num b => a = b
  | .str a, .str b => a = b
  | .arr a, .arr b => jsonListBeq a b
  | .obj a, .obj b => jsonFieldsBeq a b
  | _, _ => false
/-- Structural equality of argument tuples (element-wise, same length). -/
def jsonListBeq : JsonList → JsonList → Bool
  | .nil, .nil => true
  | .cons h t, .cons h2 t2 => jsonBeq h h2 && jsonListBeq t t2
  | _, _ => false
/-- Structural equality of object property lists. -/
def jsonFieldsBeq : JsonFields → JsonFields → Bool
  | .fnil, .fnil => true
  | .fcons k v t, .fcons k2 v2 t2 => k = k2 && jsonBeq v v2 && jsonFieldsBeq t t2
  | _, _ => false
end

/-- Modelled from the spec: the `lru` decorator itself is not among the
sources (only its option types, tests and the `LRU` class are); per
`Options.maxSize` (src/packages/lru/src/options.ts:76-81, `@default {128}`)
and §6 of the spec (`maxSize: integer > 0 = 128`), the decorator's default
configuration builds its cache with the `LRU` constructor and no explicit
`maxSize`. -/
def decoratorDefaultCache : LRU String Json :=
  LRU.create String Json none

/-- The concrete store `new LRU<number, number>(2)` of the eviction and
recency scenarios. -/
def lru2 : LRU ℕ ℕ :=
  LRU.create ℕ ℕ (some (JSNum.finite 2))

/-- The concrete store `new LRU<number, number>(0)`. -/
def lru0 : LRU ℕ ℕ :=
  LRU.create ℕ ℕ (some (JSNum.finite 0))

/-! ### Lemmas about the map model -/

variable [DecidableEq K]

theorem mapHas_eq_true {m : List (K × V)} {k : K} :
    mapHas m k = true ↔ ∃ p ∈ m, p.1 = k := by
  simp [mapHas]

theorem mapHas_eq_false {m : List (K × V)} {k : K} :
    mapHas m k = false ↔ ∀ p ∈ m, ¬ p.1 = k := by
  simp [mapHas]

theorem mapHas_cons (p : K × V) (t : List (K × V)) (k : K) :
    mapHas (p :: t) k = (decide (p.1 = k) || mapHas t k) := by
  simp [mapHas]

theorem mapHas_append (m m2 : List (K × V)) (k : K) :
    mapHas (m ++ m2) k = (mapHas m k || mapHas m2 k) := by
  simp [mapHas]

theorem mapGet_cons (p : K × V) (t : List (K × V)) (k : K) :
    mapGet (p :: t) k = if p.1 = k then some p.2 else mapGet t k := by
  by_cases h : p.1 = k <;> simp [mapGet, List.find?_cons, h]

theorem mapDelete_cons (p : K × V) (t : List (K × V)) (k : K) :
    mapDelete (p :: t) k = if p.1 = k then mapDelete t k else p :: mapDelete t k := by
  by_cases h : p.1 = k <;> simp [mapDelete, List.filter_cons, h]

theorem mapGet_some_has {m : List (K × V)} {k : K} {v : V}
    (h : mapGet m k = some v) : mapHas m k = true := by
  unfold mapGet at h
  cases hf : m.find? fun p => p.1 = k with
  | none => rw [hf] at h; simp at h
  | some p =>
    have hm := List.mem_of_find?_eq_some hf
    have hp := List.find?_some hf
    exact mapHas_eq_true.mpr ⟨p, hm, by simpa using hp⟩

theorem mapHas_mapDelete_self (m : List (K × V)) (k : K) :
    mapHas (mapDelete m k) k = false := by
  rw [mapHas_eq_false]
  intro p hp
  have := List.of_mem_filter hp
  simpa using this

theorem mapHas_mapDelete_imp {m : List (K × V)} {k k2 : K}
    (h : mapHas (mapDelete m k2) k = true) : mapHas m k = true := by
  obtain ⟨p, hp, hpk⟩ := mapHas_eq_true.mp h
  exact mapHas_eq_true.mpr ⟨p, List.mem_of_mem_filter hp, hpk⟩

theorem mapDelete_of_not_has {m : List (K × V)} {k : K}
    (h : mapHas m k = false) : mapDelete m k = m := by
  apply List.filter_eq_self.mpr
  intro p hp
  have := mapHas_eq_false.mp h p hp
  simpa using this

theorem mapSet_of_not_has {m : List (K × V)} {k : K} (v : V)
    (h : mapHas m k = false) : mapSet m k v = m ++ [(k, v)] := by
  simp [mapSet, h]

theorem mapGet_append_not_has {m : List (K × V)} {k : K} (v : V)
    (h : mapHas m k = false) : mapGet (m ++ [(k, v)]) k = some v := by
  induction m with
  | nil => simp [mapGet, List.find?_cons]
  | cons p t ih =>
    rw [mapHas_cons] at h
    simp only [Bool.or_eq_false_iff, decide_eq_false_iff_not] at h
    rw [List.cons_append, mapGet_cons, if_neg h.1]
    exact ih h.2

theorem mapDelete_append_not_has {m : List (K × V)} {k : K} (v : V)
    (h : mapHas m k = false) : mapDelete (m ++ [(k, v)]) k = m := by
  have h2 : mapDelete (m ++ [(k, v)]) k = mapDelete m k ++ mapDelete [(k, v)] k :=
    List.filter_append _ _
  rw [h2, mapDelete_of_not_has h]
  simp [mapDelete]

theorem mapGet_mapDelete_ne {m : List (K × V)} {k k2 : K} (hne : k2 ≠ k) :
    mapGet (mapDelete m k) k2 = mapGet m k2 := by
  induction m with
  | nil => rfl
  | cons p t ih =>
    rw [mapDelete_cons, mapGet_cons]
    by_cases hp : p.1 = k
    · rw [if_pos hp, if_neg (by rw [hp]; exact fun h => hne h.symm), ih]
    · rw [if_neg hp, mapGet_cons, ih]

theorem mapGet_append_single_ne {m : List (K × V)} {k k2 : K} (v : V) (hne : k2 ≠ k) :
    mapGet (m ++ [(k, v)]) k2 = mapGet m k2 := by
  induction m with
  | nil =>
    have hkk : ¬ k = k2 := fun h => hne h.symm
    simp [mapGet, List.find?_cons, hkk]
  | cons p t ih => rw [List.cons_append, mapGet_cons, mapGet_cons, ih]

theorem length_mapDelete_le (m : List (K × V)) (k : K) :
    (mapDelete m k).length ≤ m.length :=
  List.length_filter_le _ m

theorem length_mapDelete_lt {m : List (K × V)} {k : K} (h : mapHas m k = true) :
    (mapDelete m k).length < m.length := by
  induction m with
  | nil => simp [mapHas] at h
  | cons p t ih =>
    rw [mapDelete_cons]
    by_cases hp : p.1 = k
    · rw [if_pos hp]
      exact Nat.lt_succ_of_le (length_mapDelete_le t k)
    · rw [mapHas_cons] at h
      rw [if_neg hp]
      have ht : mapHas t k = true := by
        cases hq : mapHas t k with
        | true => rfl
        | false => rw [hq] at h; simp [hp] at h
      simpa using Nat.succ_lt_succ (ih ht)

theorem length_mapDelete_of_nodup {m : List (K × V)} {k : K}
    (hn : (m.map Prod.fst).Nodup) (h : mapHas m k = true) :
    (mapDelete m k).length + 1 = m.length := by
  induction m with
  | nil => simp [mapHas] at h
  | cons p t ih =>
    rw [List.map_cons, List.nodup_cons] at hn
    rw [mapDelete_cons]
    by_cases hp : p.1 = k
    · have ht : mapHas t k = false := by
        cases hq : mapHas t k with
        | false => rfl
        | true =>
          obtain ⟨q, hq2, hqk⟩ := mapHas_eq_true.mp hq
          exact absurd (hp ▸ hqk ▸ List.mem_map_of_mem Prod.fst hq2) hn.1
      rw [if_pos hp, mapDelete_of_not_has ht]
      rfl
    · rw [mapHas_cons] at h
      have ht : mapHas t k = true := by
        cases hq : mapHas t k with
        | true => rfl
        | false => rw [hq] at h; simp [hp] at h
      rw [if_neg hp]
      have := ih hn.2 ht
      simp only [List.length_cons]
      omega

theorem head?_mem {α : Type} {l : List α} {p : α} (h : l.head? = some p) : p ∈ l := by
  cases l with
  | nil => simp at h
  | cons x t =>
    simp only [List.head?_cons, Option.some.injEq] at h
    rw [← h]
    exact List.mem_cons_self x t

theorem mapHas_of_mem {m : List (K × V)} {p : K × V} (hp : p ∈ m) :
    mapHas m p.1 = true :=
  mapHas_eq_true.mpr ⟨p, hp, rfl⟩

/-! ### Lemmas about the `LRU` operations -/

theorem setPrep_not_has (s : LRU K V) (k : K) :
    mapHas (s.setPrep k) k = false := by
  unfold LRU.setPrep
  by_cases h1 : mapHas s.cache k = true
  · rw [if_pos h1]
    exact mapHas_mapDelete_self s.cache k
  · have h1f : mapHas s.cache k = false := by
      cases hq : mapHas s.cache k with
      | false => rfl
      | true => exact absurd hq h1
    rw [if_neg h1]
    by_cases h2 : s.maxSize ≤ s.cache.length
    · rw [if_pos h2]
      cases hh : s.cache.head? with
      | none => simp only [hh]; exact h1f
      | some p =>
        simp only [hh]
        cases hq : mapHas (mapDelete s.cache p.1) k with
        | false => rfl
        | true => exact absurd (mapHas_mapDelete_imp hq) (by rw [h1f]; simp)
    · rw [if_neg h2]
      exact h1f

theorem set_cache (s : LRU K V) (k : K) (v : V) :
    (s.set k v).cache = s.setPrep k ++ [(k, v)] := by
  show mapSet (s.setPrep k) k v = _
  exact mapSet_of_not_has v (setPrep_not_has s k)

theorem set_eq_mk (s : LRU K V) (k : K) (v : V) :
    s.set k v = LRU.mk (s.setPrep k ++ [(k, v)]) s.maxSize := by
  unfold LRU.set
  rw [mapSet_of_not_has v (setPrep_not_has s k)]

theorem get_of_cache_last (pre : List (K × V)) (k : K) (v : V) (c : ℕ)
    (h : mapHas pre k = false) :
    (LRU.mk (pre ++ [(k, v)]) c).get k = (some v, LRU.mk (pre ++ [(k, v)]) c) := by
  unfold LRU.get
  simp only [mapGet_append_not_has v h]
  rw [mapDelete_append_not_has v h, mapSet_of_not_has v h]

/-- A `set` immediately followed by a `get` of the same key returns exactly the
value just stored and leaves the state untouched. -/
theorem get_set (s : LRU K V) (k : K) (v : V) :
    (s.set k v).get k = (some v, s.set k v) := by
  rw [set_eq_mk s k v]
  exact get_of_cache_last (s.setPrep k) k v s.maxSize (setPrep_not_has s k)

theorem maxSize_set (s : LRU K V) (k : K) (v : V) : (s.set k v).maxSize = s.maxSize :=
  rfl

theorem maxSize_get (s : LRU K V) (k : K) : ((s.get k).2).maxSize = s.maxSize := by
  unfold LRU.get
  cases mapGet s.cache k <;> rfl

theorem maxSize_applyOp (s : LRU K V) (op : Op K V) :
    (applyOp s op).maxSize = s.maxSize := by
  cases op with
  | set k v => rfl
  | get k => exact maxSize_get s k
  | delete k => rfl
  | clear => rfl

theorem maxSize_applyOps (ops : List (Op K V)) (s : LRU K V) :
    (applyOps s ops).maxSize = s.maxSize := by
  induction ops generalizing s with
  | nil => rfl
  | cons op ops ih =>
    rw [show applyOps s (op :: ops) = applyOps (applyOp s op) ops from rfl, ih,
      maxSize_applyOp]

theorem size_set_le (s : LRU K V) (k : K) (v : V) :
    (s.set k v).size ≤ max (max s.maxSize 1) s.size := by
  have hc := set_cache s k v
  have hsz : (s.set k v).size = (s.setPrep k).length + 1 := by
    show (s.set k v).cache.length = _
    rw [hc, List.length_append]
    rfl
  rw [hsz]
  have hss : s.size = s.cache.length := rfl
  unfold LRU.setPrep
  by_cases h1 : mapHas s.cache k = true
  · rw [if_pos h1]
    have h2 := length_mapDelete_lt h1
    refine le_trans ?_ (le_max_right (max s.maxSize 1) s.size)
    rw [hss]
    omega
  · rw [if_neg h1]
    by_cases h2 : s.maxSize ≤ s.cache.length
    · rw [if_pos h2]
      cases hh : s.cache.head? with
      | none =>
        simp only [hh]
        have he : s.cache = [] := by
          cases hcc : s.cache with
          | nil => rfl
          | cons x t => rw [hcc] at hh; simp at hh
        rw [he]
        refine le_trans ?_ (le_max_left (max s.maxSize 1) s.size)
        refine le_trans ?_ (le_max_right s.maxSize 1)
        simp
      | some p =>
        simp only [hh]
        have hp := mapHas_of_mem (head?_mem hh)
        have h3 := length_mapDelete_lt hp
        refine le_trans ?_ (le_max_right (max s.maxSize 1) s.size)
        rw [hss]
        omega
    · rw [if_neg h2]
      refine le_trans ?_ (le_max_left (max s.maxSize 1) s.size)
      refine le_trans ?_ (le_max_left s.maxSize 1)
      omega

theorem size_get_le (s : LRU K V) (k : K) : ((s.get k).2).size ≤ s.size := by
  unfold LRU.get
  cases hg : mapGet s.cache k with
  | none => exact le_refl _
  | some v =>
    have hhas := mapGet_some_has hg
    have hnd := mapHas_mapDelete_self s.cache k
    show (mapSet (mapDelete s.cache k) k v).length ≤ s.cache.length
    rw [mapSet_of_not_has v hnd, List.length_append]
    have := length_mapDelete_lt hhas
    simp only [List.length_cons, List.length_nil]
    omega

theorem size_delete_le (s : LRU K V) (k : K) : ((s.delete k).2).size ≤ s.size :=
  List.length_filter_le _ s.cache

omit [DecidableEq K] in
theorem size_clear (s : LRU K V) : s.clear.size = 0 :=
  rfl

theorem inv_applyOp {s : LRU K V} {op : Op K V} (h : s.size ≤ max s.maxSize 1) :
    (applyOp s op).size ≤ max (applyOp s op).maxSize 1 := by
  rw [maxSize_applyOp]
  cases op with
  | set k v =>
    show (s.set k v).size ≤ max s.maxSize 1
    calc (s.set k v).size ≤ max (max s.maxSize 1) s.size := size_set_le s k v
      _ ≤ max (max s.maxSize 1) (max s.maxSize 1) := max_le_max (le_refl _) h
      _ = max s.maxSize 1 := max_self _
  | get k => exact le_trans (size_get_le s k) h
  | delete k => exact le_trans (size_delete_le s k) h
  | clear =>
    show s.clear.size ≤ _
    rw [size_clear]
    exact Nat.zero_le _

theorem inv_applyOps (ops : List (Op K V)) (s : LRU K V)
    (h : s.size ≤ max s.maxSize 1) :
    (applyOps s ops).size ≤ max (applyOps s ops).maxSize 1 := by
  induction ops generalizing s with
  | nil => exact h
  | cons op ops ih => exact ih (applyOp s op) (inv_applyOp h)

/-- With capacity `0`, a `set` leaves exactly the entry just inserted: the
eviction at lru_cache.ts:148-152 runs before the insertion at line 153, so the
new entry itself survives until the next insertion. -/
theorem set_of_maxSize_zero (s : LRU K V) (k : K) (v : V)
    (h0 : s.maxSize = 0) (h1 : s.size ≤ 1) :
    (s.set k v).cache = [(k, v)] := by
  rw [set_cache]
  suffices hp : s.setPrep k = [] by rw [hp]; rfl
  unfold LRU.setPrep
  cases hcc : s.cache with
  | nil => simp [mapHas, h0]
  | cons p t =>
    have ht : t = [] := by
      have h2 : s.size = t.length + 1 := by
        rw [show s.size = s.cache.length from rfl, hcc]
        rfl
      rw [h2] at h1
      cases t with
      | nil => rfl
      | cons q u => simp at h1
    subst ht
    by_cases hk : p.1 = k
    · simp [mapHas, hk, mapDelete]
    · simp [mapHas, hk, h0, mapDelete]

/-! ### Preservation of well-formedness (distinct keys) -/

theorem wf_mapDelete {m : List (K × V)} (k : K) (h : (m.map Prod.fst).Nodup) :
    ((mapDelete m k).map Prod.fst).Nodup :=
  h.sublist ((List.filter_sublist m).map Prod.fst)

theorem wf_append_single {m : List (K × V)} {k : K} (v : V)
    (hn : (m.map Prod.fst).Nodup) (h : mapHas m k = false) :
    ((m ++ [(k, v)]).map Prod.fst).Nodup := by
  rw [List.map_append]
  refine List.Nodup.append hn (by simp) ?_
  intro a ha hb
  simp only [List.map_cons, List.map_nil, List.mem_singleton] at hb
  subst hb
  obtain ⟨p, hp, hpk⟩ := List.mem_map.mp ha
  exact absurd (mapHas_eq_true.mpr ⟨p, hp, hpk⟩) (by rw [h]; simp)

theorem setPrep_sublist (s : LRU K V) (k : K) :
    List.Sublist (s.setPrep k) s.cache := by
  unfold LRU.setPrep
  by_cases h1 : mapHas s.cache k = true
  · rw [if_pos h1]
    exact List.filter_sublist _
  · rw [if_neg h1]
    by_cases h2 : s.maxSize ≤ s.cache.length
    · rw [if_pos h2]
      cases hh : s.cache.head? with
      | none => simp only [hh]; exact List.Sublist.refl _
      | some p => simp only [hh]; exact List.filter_sublist _
    · rw [if_neg h2]

theorem wf_set (s : LRU K V) (k : K) (v : V) (h : s.WF) : (s.set k v).WF := by
  unfold LRU.WF at *
  rw [set_cache]
  exact wf_append_single v (h.sublist ((setPrep_sublist s k).map Prod.fst))
    (setPrep_not_has s k)

theorem wf_get (s : LRU K V) (k : K) (h : s.WF) : ((s.get k).2).WF := by
  unfold LRU.get
  cases hg : mapGet s.cache k with
  | none => exact h
  | some v =>
    unfold LRU.WF at *
    show ((mapSet (mapDelete s.cache k) k v).map Prod.fst).Nodup
    rw [mapSet_of_not_has v (mapHas_mapDelete_self s.cache k)]
    exact wf_append_single v (wf_mapDelete k h) (mapHas_mapDelete_self s.cache k)

theorem wf_delete (s : LRU K V) (k : K) (h : s.WF) : ((s.delete k).2).WF :=
  wf_mapDelete k h

theorem wf_applyOp (s : LRU K V) (op : Op K V) (h : s.WF) : (applyOp s op).WF := by
  cases op with
  | set k v => exact wf_set s k v h
  | get k => exact wf_get s k h
  | delete k => exact wf_delete s k h
  | clear => exact List.nodup_nil

theorem wf_create (K V : Type) [DecidableEq K] (maxSize? : Option JSNum) :
    (LRU.create K V maxSize?).WF :=
  List.nodup_nil

/-- Every store reachable from a freshly constructed instance has pairwise
distinct keys, as the backing JavaScript `Map` guarantees. -/
theorem wf_applyOps (ops : List (Op K V)) (s : LRU K V) (h : s.WF) :
    (applyOps s ops).WF := by
  induction ops generalizing s with
  | nil => exact h
  | cons op ops ih => exact ih (applyOp s op) (wf_applyOp s op h)

/-! ### Structural equality of serializable values is sound for `=` -/

mutual
theorem jsonBeq_sound (a b : Json) (h : jsonBeq a b = true) : a = b := by
  cases a with
  | null => cases b <;> simp_all [jsonBeq]
  | bool x => cases b <;> simp_all [jsonBeq]
  | num x => cases b <;> simp_all [jsonBeq]
  | str x => cases b <;> simp_all [jsonBeq]
  | arr x =>
    cases b with
    | arr y => exact congrArg Json.arr (jsonListBeq_sound x y (by simpa [jsonBeq] using h))
    | null => simp [jsonBeq] at h
    | bool y => simp [jsonBeq] at h
    | num y => simp [jsonBeq] at h
    | str y => simp [jsonBeq] at h
    | obj y => simp [jsonBeq] at h
  | obj x =>
    cases b with
    | obj y => exact congrArg Json.obj (jsonFieldsBeq_sound x y (by simpa [jsonBeq] using h))
    | null => simp [jsonBeq] at h
    | bool y => simp [jsonBeq] at h
    | num y => simp [jsonBeq] at h
    | str y => simp [jsonBeq] at h
    | arr y => simp [jsonBeq] at h

theorem jsonListBeq_sound (a b : JsonList) (h : jsonListBeq a b = true) : a = b := by
  cases a with
  | nil =>
    cases b with
    | nil => rfl
    | cons y t2 => simp [jsonListBeq] at h
  | cons x t =>
    cases b with
    | nil => simp [jsonListBeq] at h
    | cons y t2 =>
      have h1 : jsonBeq x y = true ∧ jsonListBeq t t2 = true := by
        simpa [jsonListBeq, Bool.and_eq_true] using h
      rw [jsonBeq_sound x y h1.1, jsonListBeq_sound t t2 h1.2]

theorem jsonFieldsBeq_sound (a b : JsonFields) (h : jsonFieldsBeq a b = true) : a = b := by
  cases a with
  | fnil =>
    cases b with
    | fnil => rfl
    | fcons k2 v2 t2 => simp [jsonFieldsBeq] at h
  | fcons k v t =>
    cases b with
    | fnil => simp [jsonFieldsBeq] at h
    | fcons k2 v2 t2 =>
      have h1 : (k = k2 ∧ jsonBeq v v2 = true) ∧ jsonFieldsBeq t t2 = true := by
        simpa [jsonFieldsBeq, Bool.and_eq_true, and_assoc] using h
      rw [h1.1.1, jsonBeq_sound v v2 h1.1.2, jsonFieldsBeq_sound t t2 h1.2]
end

/-! ### The claims -/

/-- Claim C1, amended: for every store constructed with any capacity argument
and for every sequence of `set`/`get`/`delete`/`clear` calls, after each `set`
the number of entries is at most `max maxSize 1` (the bound `maxSize` claimed
originally fails at `maxSize = 0`, where the eviction runs before the
insertion and the fresh entry survives). -/
theorem lru_capacity_invariant_amended (maxSize? : Option JSNum)
    (ops : List (Op K V)) (k : K) (v : V) :
    ((applyOps (LRU.create K V maxSize?) ops).set k v).size
      ≤ max (LRU.create K V maxSize?).maxSize 1 := by
  have h0 : (LRU.create K V maxSize?).size ≤ max (LRU.create K V maxSize?).maxSize 1 :=
    Nat.zero_le _
  have h1 := inv_applyOps ops _ h0
  have h2 : (applyOp (applyOps (LRU.create K V maxSize?) ops) (Op.set k v)).size
      ≤ max (applyOp (applyOps (LRU.create K V maxSize?) ops) (Op.set k v)).maxSize 1 :=
    inv_applyOp h1
  rw [maxSize_applyOp, maxSize_applyOps] at h2
  exact h2

/-- Claim C1 as stated is false at capacity 0: a single `set` on the store
`new LRU(0)` leaves `size = 1 > 0 = maxSize`. -/
theorem lru_capacity_invariant_counterexample :
    ¬ ((lru0.set 7 7).size ≤ lru0.maxSize) := by
  decide

/-- Claim C2 as stated is false: after `set(7, 7)` on `new LRU(0)` the key is
still present and the size is 1, not 0. -/
theorem lru_capacity_zero_counterexample :
    ¬ (((lru0.set 7 7).has 7 = false) ∧ ((lru0.set 7 7).size = 0)) := by
  decide

/-- Claim C2, amended: with `maxSize = 0` the store retains exactly the entry
just inserted: after any `set(k, v)` the cache holds the single entry
`(k, v)`, so `has k` is true and `size` is 1; the previous occupant (if any)
was evicted.  Each entry is evicted at the next insertion, not immediately. -/
theorem lru_capacity_zero_amended (ops : List (Op K V)) (k : K) (v : V) :
    ((applyOps (LRU.create K V (some (JSNum.finite 0))) ops).set k v).cache = [(k, v)]
    ∧ ((applyOps (LRU.create K V (some (JSNum.finite 0))) ops).set k v).has k = true
    ∧ ((applyOps (LRU.create K V (some (JSNum.finite 0))) ops).set k v).size = 1 := by
  have h0 : (applyOps (LRU.create K V (some (JSNum.finite 0))) ops).maxSize = 0 := by
    rw [maxSize_applyOps]
    show toUint32 (JSNum.finite 0) = 0
    decide
  have h1 : (applyOps (LRU.create K V (some (JSNum.finite 0))) ops).size ≤ 1 := by
    have h2 := inv_applyOps ops (LRU.create K V (some (JSNum.finite 0))) (Nat.zero_le _)
    rw [h0] at h2
    simpa using h2
  have hc := set_of_maxSize_zero _ k v h0 h1
  refine ⟨hc, ?_, ?_⟩
  · show mapHas ((applyOps (LRU.create K V (some (JSNum.finite 0))) ops).set k v).cache k = true
    rw [hc]
    simp [mapHas]
  · show ((applyOps (LRU.create K V (some (JSNum.finite 0))) ops).set k v).cache.length = 1
    rw [hc]
    rfl

/-- Claim C3: on `new LRU(2)`, the calls `set(1,1); set(2,2); set(3,3)` evict
exactly the oldest key 1: afterwards `get 1` is absent, `get 2` returns 2 and
`get 3` returns 3. -/
theorem lru_eviction_correctness :
    ((((lru2.set 1 1).set 2 2).set 3 3).get 1).1 = none ∧
    (((((lru2.set 1 1).set 2 2).set 3 3).get 1).2.get 2).1 = some 2 ∧
    ((((((lru2.set 1 1).set 2 2).set 3 3).get 1).2.get 2).2.get 3).1 = some 3 := by
  decide

/-- Claim C4: `get` refreshes recency, so on `new LRU(2)` the calls
`set(1,1); set(2,2); get(1); set(3,3)` evict key 2 and keep key 1: afterwards
`get 2` is absent, `get 1` returns 1 and `get 3` returns 3. -/
theorem lru_recency_update :
    (((((lru2.set 1 1).set 2 2).get 1).2.set 3 3).get 2).1 = none ∧
    ((((((lru2.set 1 1).set 2 2).get 1).2.set 3 3).get 2).2.get 1).1 = some 1 ∧
    (((((((lru2.set 1 1).set 2 2).get 1).2.set 3 3).get 2).2.get 1).2.get 3).1 = some 3 := by
  decide

/-- Claim C5: on every store with `maxSize ≥ 1`, `set(k, v)` immediately
followed by `get k` returns exactly `v`, and the `get` leaves the state
unchanged, so any number of repeated `get k` calls keeps returning `v`
without changing the stored value. -/
theorem lru_round_trip (s : LRU K V) (k : K) (v : V) (h : 1 ≤ s.maxSize) :
    ((s.set k v).get k).1 = some v ∧ ((s.set k v).get k).2 = s.set k v := by
  have h2 := get_set s k v
  exact ⟨by rw [h2], by rw [h2]⟩

theorem lru_round_trip_witness :
    1 ≤ lru2.maxSize ∧
    (((lru2.set 7 42).get 7).1 = some 42 ∧ ((lru2.set 7 42).get 7).2 = lru2.set 7 42) :=
  ⟨by decide, lru_round_trip lru2 7 42 (by decide)⟩

/-- Claim C6: `set` on an already present key keeps the size unchanged (no
eviction), leaves the key present, removes it and reinserts `(k, v)` at the
most-recent end, and leaves every other key's lookup result unchanged. -/
theorem lru_set_existing (s : LRU K V) (k : K) (v : V) (k2 : K)
    (hw : s.WF) (hk : s.has k = true) (hne : k2 ≠ k) :
    (s.set k v).size = s.size ∧
    (s.set k v).has k = true ∧
    (s.set k v).cache = mapDelete s.cache k ++ [(k, v)] ∧
    mapGet (s.set k v).cache k2 = mapGet s.cache k2 := by
  have hk2 : mapHas s.cache k = true := hk
  have hprep : s.setPrep k = mapDelete s.cache k := by
    unfold LRU.setPrep
    rw [if_pos hk2]
  have hc : (s.set k v).cache = mapDelete s.cache k ++ [(k, v)] := by
    rw [set_cache, hprep]
  refine ⟨?_, ?_, hc, ?_⟩
  · show (s.set k v).cache.length = s.cache.length
    rw [hc, List.length_append]
    have := length_mapDelete_of_nodup hw hk2
    simp only [List.length_cons, List.length_nil]
    omega
  · show mapHas (s.set k v).cache k = true
    rw [hc, mapHas_append]
    simp [mapHas]
  · rw [hc, mapGet_append_single_ne v hne, mapGet_mapDelete_ne hne]

theorem lru_set_existing_witness :
    ((lru2.set 1 10).set 2 20).WF ∧
    ((lru2.set 1 10).set 2 20).has 1 = true ∧
    (2 : ℕ) ≠ 1 ∧
    ((((lru2.set 1 10).set 2 20).set 1 99).size = ((lru2.set 1 10).set 2 20).size ∧
     (((lru2.set 1 10).set 2 20).set 1 99).has 1 = true ∧
     (((lru2.set 1 10).set 2 20).set 1 99).cache
       = mapDelete ((lru2.set 1 10).set 2 20).cache 1 ++ [(1, 99)] ∧
     mapGet (((lru2.set 1 10).set 2 20).set 1 99).cache 2
       = mapGet ((lru2.set 1 10).set 2 20).cache 2) :=
  ⟨by show ((((lru2.set 1 10).set 2 20).cache.map Prod.fst)).Nodup; decide,
    by decide, by decide,
    lru_set_existing _ 1 99 2
      (by show ((((lru2.set 1 10).set 2 20).cache.map Prod.fst)).Nodup; decide)
      (by decide) (by decide)⟩

/-- Claim C7: `delete k` returns `true` exactly when `k` was present just
before the call; afterwards `k` is absent, the remaining entries are a
subsequence of the previous ones (their relative recency order is unchanged)
and every other key's lookup result is unchanged. -/
theorem lru_delete_contract (s : LRU K V) (k k2 : K) (hne : k2 ≠ k) :
    (s.delete k).1 = s.has k ∧
    (s.delete k).2.has k = false ∧
    List.Sublist (s.delete k).2.cache s.cache ∧
    mapGet (s.delete k).2.cache k2 = mapGet s.cache k2 :=
  ⟨rfl, mapHas_mapDelete_self s.cache k, List.filter_sublist s.cache,
    mapGet_mapDelete_ne hne⟩

theorem lru_delete_contract_witness :
    (2 : ℕ) ≠ 1 ∧
    (((lru2.set 1 10).delete 1).1 = (lru2.set 1 10).has 1 ∧
     ((lru2.set 1 10).delete 1).2.has 1 = false ∧
     List.Sublist ((lru2.set 1 10).delete 1).2.cache (lru2.set 1 10).cache ∧
     mapGet ((lru2.set 1 10).delete 1).2.cache 2 = mapGet (lru2.set 1 10).cache 2) :=
  ⟨by decide, lru_delete_contract _ 1 2 (by decide)⟩

/-- Claim C8: the default key generator (`JSON.stringify` of the argument
tuple) is pure and deterministic: structurally equal argument tuples always
produce the same cache key. -/
theorem default_key_deterministic (a b : JsonList) (h : jsonListBeq a b = true) :
    defaultKey a = defaultKey b := by
  rw [jsonListBeq_sound a b h]

theorem default_key_deterministic_witness :
    jsonListBeq (JsonList.cons (Json.num 1) (JsonList.cons (Json.str "x") JsonList.nil))
        (JsonList.cons (Json.num 1) (JsonList.cons (Json.str "x") JsonList.nil)) = true ∧
    defaultKey (JsonList.cons (Json.num 1) (JsonList.cons (Json.str "x") JsonList.nil))
      = defaultKey (JsonList.cons (Json.num 1) (JsonList.cons (Json.str "x") JsonList.nil)) :=
  ⟨by decide, default_key_deterministic _ _ (by decide)⟩

/-- Claim C9: a store constructed without a capacity argument (or with
`null`/`undefined`) has `maxSize = 128`, and the decorator's default
configuration (spec-modelled, as the decorator body is not among the sources)
uses that same capacity. -/
theorem lru_default_capacity :
    (LRU.create ℕ ℕ none).maxSize = 128 ∧ decoratorDefaultCache.maxSize = 128 :=
  ⟨rfl, rfl⟩

/-- Claim C10: a non-null capacity argument is stored as `(+maxSize) >>> 0`:
the constructor records `toUint32` of the argument, which is always below
`2 ^ 32`; NaN (and anything whose numeric coercion is NaN) becomes 0,
fractional values are truncated toward zero (2.5 becomes 2, -3.5 becomes
`2 ^ 32 - 3`), and -1 becomes 4294967295. -/
theorem lru_constructor_coercion :
    (∀ n : JSNum, (LRU.create ℕ ℕ (some n)).maxSize = toUint32 n) ∧
    (∀ n : JSNum, toUint32 n < 2 ^ 32) ∧
    toUint32 JSNum.nan = 0 ∧
    (LRU.create ℕ ℕ (some (JSNum.finite (mkRat 5 2)))).maxSize = 2 ∧
    (LRU.create ℕ ℕ (some (JSNum.finite (mkRat (-7) 2)))).maxSize = 4294967293 ∧
    (LRU.create ℕ ℕ (some (JSNum.finite (-1)))).maxSize = 4294967295 := by
  refine ⟨fun n => rfl, ?_, rfl, by decide, by decide, by decide⟩
  intro n
  cases n with
  | nan => decide
  | posInf => decide
  | negInf => decide
  | finite q =>
    show (Int.emod (jsTruncate q) (2 ^ 32)).toNat < 2 ^ 32
    have h1 : 0 ≤ Int.emod (jsTruncate q) (2 ^ 32) := Int.emod_nonneg _ (by norm_num)
    have h2 : Int.emod (jsTruncate q) (2 ^ 32) < 2 ^ 32 := Int.emod_lt_of_pos _ (by norm_num)
    have h3 : (2 : ℤ) ^ 32 = 4294967296 := by norm_num
    have h4 : (2 : ℕ) ^ 32 = 4294967296 := by norm_num
    rw [h3] at h1 h2 ⊢
    rw [h4]
    omega

end Spec2Proof
